import Mathlib

/-!
Verification development for the ZeroMonitor polling/reconciliation engine.

The definitions below are a shallow embedding of the Python source:
* `src/polling_agent.py` — dataclasses `MetricEvent`, `SystemMetrics`, `Node`,
  the worker loop `run_node`, `Supervisor.reconcile`, and `metrics_consumer`;
* the `PersistentConnection` / `PollingAgent` layer imported by
  `src/driver.py` is not among the provided source files, so those parts are
  modelled from the specification (their doc comments say so explicitly).

Time (`time.monotonic()`) is modelled by rationals; `threading.Event` objects
are modelled by numeric identifiers allocated from a counter, together with a
list of identifiers whose `set()` has been called.

The file is laid out as definitions first, then theorems.
-/

namespace ZeroMonitor

/-- `SystemMetrics` dataclass (polling_agent.py): the direct result of one
metrics collection.  Python floats are modelled as rationals. -/
structure SystemMetrics where
  hostname : String
  timestamp : String
  cpu_temp_c : Option ℚ
  cpu_load_1m : Option ℚ
  mem_total_mb : Option Int
  mem_used_mb : Option Int
  disk_used_percent : Option ℚ
deriving Repr, DecidableEq

/-- Payload of a `MetricEvent`: `asdict(metrics)` on success, the dictionary
`\x7b"error": str(e)\x7d` on failure. -/
inductive Payload where
  | metrics (m : SystemMetrics)
  | error (e : String)
deriving Repr, DecidableEq

/-- `MetricEvent` dataclass (polling_agent.py): the unit placed on the
supervisor-owned queue. -/
structure MetricEvent where
  node : String
  success : Bool
  payload : Payload
  timestamp : String
deriving Repr, DecidableEq

/-! ### The metrics consumer (`metrics_consumer`, polling_agent.py lines 379-391) -/

/-- The cache file name `f"[event.node]_cache.json"` used by `metrics_consumer`. -/
def cacheFileName (node : String) : String := node ++ "_cache.json"

/-- The file system visible to `metrics_consumer`: file name to contents.
Contents are modelled as the (unserialised) payload written by `json.dump`. -/
def FileSystem : Type := String → Option Payload

/-- Result of one iteration of the `metrics_consumer` loop body: the file
system afterwards, the list of files opened for writing, and the log lines
emitted. -/
structure ConsumeResult where
  fs : FileSystem
  written : List String
  logs : List String

/-- One iteration of the `metrics_consumer` loop (polling_agent.py lines
382-391): pull `event`; if `event.success`, open `f"[event.node]_cache.json"`
for writing and `json.dump` the payload; in either case log
`"cache updated: %s"`. -/
def metrics_consumer_step (fs : FileSystem) (event : MetricEvent) : ConsumeResult :=
  if event.success then
    { fs := fun name =>
        if name = cacheFileName event.node then some event.payload else fs name
      written := [cacheFileName event.node]
      logs := ["cache updated: " ++ event.node] }
  else
    { fs := fs
      written := []
      logs := ["cache updated: " ++ event.node] }

/-! ### The worker poll loop (`run_node`, polling_agent.py lines 219-275) -/

/-- Outcome of one `provider.collect()` call: either a `SystemMetrics` record
is returned, or an exception with description `e` is raised. -/
inductive CollectOutcome where
  | ok (m : SystemMetrics)
  | raises (e : String)
deriving Repr, DecidableEq

/-- Environment of one iteration of the `run_node` loop: the values the
iteration observes from the outside world.  `stop_at_top` is the value of
`stop_event.is_set()` at the top of the loop; `stop_during_wait` is the value
returned by `stop_event.wait(wait_time)` when that wait happens; `collect` is
the outcome of `node.provider.collect()`; `now_top`, `now_check` and `now_set`
are the readings of `time.monotonic()` at lines 238, 274 and 275; `ts` is
`datetime.now().isoformat()` used for the event timestamp. -/
structure CycleEnv where
  stop_at_top : Bool
  stop_during_wait : Bool
  collect : CollectOutcome
  now_top : ℚ
  now_check : ℚ
  now_set : ℚ
  ts : String
deriving Repr, DecidableEq

/-- The success `MetricEvent` built at polling_agent.py lines 253-258. -/
def successEvent (name : String) (m : SystemMetrics) (ts : String) : MetricEvent :=
  { node := name, success := true, payload := .metrics m, timestamp := ts }

/-- The failure `MetricEvent` built at polling_agent.py lines 263-268. -/
def failureEvent (name : String) (e : String) (ts : String) : MetricEvent :=
  { node := name, success := false, payload := .error e, timestamp := ts }

/-- The single event a collection step produces for its cycle. -/
def cycleEvent (name : String) (env : CycleEnv) : MetricEvent :=
  match env.collect with
  | .ok m => successEvent name m env.ts
  | .raises e => failureEvent name e env.ts

/-- Result of one iteration of the `run_node` loop: either the worker returned
(`stopped`), or it continues with an updated `next_run`; in both cases with
the list of events it put on the queue during the iteration. -/
inductive StepResult where
  | stopped (emitted : List MetricEvent)
  | running (next_run : ℚ) (emitted : List MetricEvent)
deriving Repr, DecidableEq

/-- One iteration of the `run_node` loop body (polling_agent.py lines
231-275): check `stop_event.is_set()`; compute `wait_time = next_run - now`;
if positive, `stop_event.wait(wait_time)` and return when it fires; otherwise
collect, put exactly one success or failure event on the queue, advance
`next_run += interval`, and snap `next_run` to now when it is in the past. -/
def run_node_step (name : String) (interval : ℚ) (next_run : ℚ) (env : CycleEnv) :
    StepResult :=
  if env.stop_at_top then .stopped []
  else
    let wait_time := next_run - env.now_top
    if 0 < wait_time ∧ env.stop_during_wait = true then .stopped []
    else
      let nr := next_run + interval
      let nr := if nr < env.now_check then env.now_set else nr
      .running nr [cycleEvent name env]

/-- `run_node`'s loop run against a finite trace of cycle environments.
Returns `(some next_run, events)` when the worker is still running after the
trace (with its current `next_run`), `(none, events)` when it returned. -/
def run_node_trace (name : String) (interval : ℚ) :
    ℚ → List CycleEnv → Option ℚ × List MetricEvent
  | next_run, [] => (some next_run, [])
  | next_run, env :: rest =>
    match run_node_step name interval next_run env with
    | .stopped evs => (none, evs)
    | .running nr evs =>
      let r := run_node_trace name interval nr rest
      (r.1, evs ++ r.2)

/-- A cycle in which neither stop check fires. -/
def noStop (env : CycleEnv) : Prop :=
  env.stop_at_top = false ∧ env.stop_during_wait = false

instance (env : CycleEnv) : Decidable (noStop env) := by
  unfold noStop
  infer_instance

/-- A concrete raising cycle used by the witnesses below. -/
def envRaise : CycleEnv :=
  { stop_at_top := false, stop_during_wait := false, collect := .raises "timeout",
    now_top := 0, now_check := 1, now_set := 1, ts := "t" }

/-- The no-overrun condition for a trace: at the end of each cycle, the bumped
`next_run` has not yet fallen in the past, so the snap at polling_agent.py
line 274 never fires. -/
def no_overrun (interval : ℚ) : ℚ → List CycleEnv → Bool
  | _, [] => true
  | next_run, env :: rest =>
    decide (env.now_check ≤ next_run + interval) &&
      no_overrun interval (next_run + interval) rest

/-! ### The supervisor and `reconcile` (polling_agent.py lines 278-375) -/

/-- `Node` dataclass (polling_agent.py lines 173-184).  The `provider` object
is represented by an opaque identifier.  `stop_event` holds the identifier of
the `threading.Event` assigned by the supervisor, `none` before assignment. -/
structure Node where
  name : String
  provider : Nat
  interval : Nat
  stop_event : Option Nat
  fail_count : Nat
deriving Repr, DecidableEq

/-- A fresh `Node` as built by `load_targets` (stop_event not yet assigned). -/
def mkNode (name : String) (provider : Nat) (interval : Nat) : Node :=
  { name := name, provider := provider, interval := interval,
    stop_event := none, fail_count := 0 }

/-- Supervisor bookkeeping (the `Supervisor` class, polling_agent.py lines
278-290, restricted to what `reconcile` touches).  `workers` is the
`self.workers` dict as an association list from node name to stored node (the
`future` component of the stored pair plays no role in reconciliation and is
omitted).  `threading.Event` objects are modelled by identifiers:
`next_event` is a fresh-identifier counter, `events_created` records every
event ever created together with the node name it was created for, and
`signalled` records the identifiers on which `.set()` was called. -/
structure SupState where
  workers : List (String × Node)
  next_event : Nat
  events_created : List (Nat × String)
  signalled : List Nat
deriving Repr, DecidableEq

/-- Keys of a worker map, in order. -/
def keys (m : List (String × Node)) : List String := m.map Prod.fst

/-- Python dict lookup `m[k]` (first — and with unique keys, only — match). -/
def lookupNode : List (String × Node) → String → Option Node
  | [], _ => none
  | p :: rest, k => if p.1 = k then some p.2 else lookupNode rest k

/-- Python dict assignment `m[k] = v`: update in place when the key exists,
append otherwise. -/
def dictSet (m : List (String × Node)) (k : String) (v : Node) :
    List (String × Node) :=
  if k ∈ keys m then m.map (fun p => if p.1 = k then (k, v) else p)
  else m ++ [(k, v)]

/-- Python dict `m.pop(k)`: drop the entry with key `k`. -/
def dictPop (m : List (String × Node)) (k : String) : List (String × Node) :=
  m.filter (fun p => decide (¬ p.1 = k))

/-- The dict comprehension `\x7bn.name: n for n in new_nodes\x7d`
(polling_agent.py line 333): later duplicates overwrite earlier ones. -/
def buildMap (ns : List Node) : List (String × Node) :=
  ns.foldl (fun m n => dictSet m n.name n) []

/-- The start/stop/reload actions `reconcile` performs.  `started` marks a
submission of `run_node` to the worker executor for a brand-new name,
`stopped` marks "signal the cancel handle and pop the map entry", `reloaded`
marks the stop-old/start-new replacement of the interval-change branch. -/
inductive Action where
  | started (name : String)
  | stopped (name : String)
  | reloaded (name : String)
deriving Repr, DecidableEq

/-- The body of the first `reconcile` loop (polling_agent.py lines 338-349)
for one new name: create a fresh `threading.Event`, assign it to the node,
submit `run_node`, and store the node in `self.workers`. -/
def startWorker (s : SupState) (name : String) (node : Node) : SupState :=
  { workers := dictSet s.workers name { node with stop_event := some s.next_event }
    next_event := s.next_event + 1
    events_created := s.events_created ++ [(s.next_event, name)]
    signalled := s.signalled }

/-- The first `reconcile` loop over `new_names - current_names`. -/
def startPhase (s : SupState) : List (String × Node) → SupState × List Action
  | [] => (s, [])
  | (name, node) :: rest =>
    let s1 := startWorker s name node
    let r := startPhase s1 rest
    (r.1, .started name :: r.2)

/-- The body of the second `reconcile` loop (polling_agent.py lines 352-357)
for one removed name: pop the entry from `self.workers` and call
`node.stop_event.set()`. -/
def stopWorker (s : SupState) (name : String) (node : Node) : SupState :=
  { workers := dictPop s.workers name
    next_event := s.next_event
    events_created := s.events_created
    signalled := s.signalled ++ node.stop_event.toList }

/-- The second `reconcile` loop over `current_names - new_names`.  (In Python
a missing key would raise `KeyError`; the call sites only pass names currently
in the map, so the `none` branch is unreachable there.) -/
def stopPhase (s : SupState) : List String → SupState × List Action
  | [] => (s, [])
  | name :: rest =>
    match lookupNode s.workers name with
    | none => stopPhase s rest
    | some node =>
      let r := stopPhase (stopWorker s name node) rest
      (r.1, .stopped name :: r.2)

/-- The body of the interval-change branch of the third `reconcile` loop
(polling_agent.py lines 365-375) for one name: `old_node.stop_event.set()`,
give the new node a fresh event, submit `run_node`, replace the map entry. -/
def reloadWorker (s : SupState) (name : String) (new_node old_node : Node) : SupState :=
  { workers := dictSet s.workers name { new_node with stop_event := some s.next_event }
    next_event := s.next_event + 1
    events_created := s.events_created ++ [(s.next_event, name)]
    signalled := s.signalled ++ old_node.stop_event.toList }

/-- The third `reconcile` loop over `new_names & current_names`
(polling_agent.py lines 360-375): when the interval changed, stop-old and
start-new; otherwise do nothing for the name. -/
def checkPhase (s : SupState) : List (String × Node) → SupState × List Action
  | [] => (s, [])
  | (name, new_node) :: rest =>
    match lookupNode s.workers name with
    | none => checkPhase s rest
    | some old_node =>
      if new_node.interval ≠ old_node.interval then
        let r := checkPhase (reloadWorker s name new_node old_node) rest
        (r.1, .reloaded name :: r.2)
      else
        checkPhase s rest

/-- Whether the interval-change branch fires for map entry `p` against the
worker map `m`: the stored node exists and its interval differs. -/
def intervalDiffers (m : List (String × Node)) (p : String × Node) : Bool :=
  match lookupNode m p.1 with
  | some old => decide (¬ p.2.interval = old.interval)
  | none => false

/-- The set `new_names - current_names` iterated by the first `reconcile`
loop, as the corresponding `new_map` entries. -/
def toStartOf (s : SupState) (new_nodes : List Node) : List (String × Node) :=
  (buildMap new_nodes).filter (fun p => decide (¬ p.1 ∈ keys s.workers))

/-- The set `current_names - new_names` iterated by the second `reconcile`
loop. -/
def toStopOf (s : SupState) (new_nodes : List Node) : List String :=
  (keys s.workers).filter (fun n => decide (¬ n ∈ keys (buildMap new_nodes)))

/-- The set `new_names & current_names` iterated by the third `reconcile`
loop, as the corresponding `new_map` entries. -/
def toCheckOf (s : SupState) (new_nodes : List Node) : List (String × Node) :=
  (buildMap new_nodes).filter (fun p => decide (p.1 ∈ keys s.workers))

/-- `Supervisor.reconcile` (polling_agent.py lines 330-375): build
`new_map`, snapshot `current_names`/`new_names`, then run the three loops —
start `new − current`, stop `current − new`, check `new ∩ current`.  Python
iterates the two name sets in unspecified order; the embedding fixes the
order of `new_map` (respectively of `current_names`), and the theorems about
it are order-insensitive.  Returns the new state and the action list. -/
def reconcile (s : SupState) (new_nodes : List Node) : SupState × List Action :=
  let r1 := startPhase s (toStartOf s new_nodes)
  let r2 := stopPhase r1.1 (toStopOf s new_nodes)
  let r3 := checkPhase r2.1 (toCheckOf s new_nodes)
  (r3.1, r1.2 ++ r2.2 ++ r3.2)

/-- A finite sequence of `reconcile` calls (states only). -/
def reconcile_seq (s : SupState) : List (List Node) → SupState
  | [] => s
  | d :: ds => reconcile_seq (reconcile s d).1 ds

/-- The initial supervisor state: empty worker map, no events yet. -/
def init_state : SupState :=
  { workers := [], next_event := 0, events_created := [], signalled := [] }

/-- The supervisor invariant tying the worker map to the event bookkeeping:
unique names, unique event identifiers, identifiers below the counter, every
stored worker holding a live (created, unsignalled) event for its own name,
and every live event being the current event of the map entry for its name. -/
structure SupInv (s : SupState) : Prop where
  keys_nodup : (keys s.workers).Nodup
  created_nodup : (s.events_created.map Prod.fst).Nodup
  created_lt : ∀ q ∈ s.events_created, q.1 < s.next_event
  signalled_lt : ∀ e ∈ s.signalled, e < s.next_event
  worker_event : ∀ p ∈ s.workers, ∃ e, p.2.stop_event = some e ∧
    (e, p.1) ∈ s.events_created ∧ ¬ e ∈ s.signalled
  live_current : ∀ q ∈ s.events_created, ¬ q.1 ∈ s.signalled →
    ∃ nd, lookupNode s.workers q.2 = some nd ∧ nd.stop_event = some q.1

/-! ### The worker's action trace (`run_node`, polling_agent.py lines 219-275)

`run_node` in the source exits only via the `return` statements at lines 236
(stop observed at the top of the loop) and 247 (stop during the scheduling
wait).  The function contains no `try`/`finally` and no call that closes or
releases the `Connection` held by `node.provider` — its only externally
visible resource/queue actions are the `queue.put` calls.  The definitions
below give that action-trace view of the same lines that `run_node_step` and
`run_node_trace` embed, with a connection-release action in the vocabulary so
that its absence from the function's trace is expressible. -/

/-- An externally visible resource/queue action of `run_node`.  `put` is a
`queue.put` of a `MetricEvent` (lines 253 and 263); `closeConnection` — a
close/release of the provider's connection — never occurs in the source,
which is what the C7 analysis is about. -/
inductive RunNodeAction where
  | put (ev : MetricEvent)
  | closeConnection
deriving Repr, DecidableEq

/-- The action trace of `run_node` over a finite trace of cycles, derived
from `run_node_trace` (the embedding of lines 231-275): the actions the
function performs are exactly its `queue.put` calls, in order — the source
has no connection release on any path (log/print output is not modelled). -/
def run_node_actions (name : String) (interval : ℚ) (next_run : ℚ)
    (trace : List CycleEnv) : Option ℚ × List RunNodeAction :=
  let r := run_node_trace name interval next_run trace
  (r.1, r.2.map RunNodeAction.put)

/-! ### `PollingAgent.shutdown` (spec §4.1)

`PollingAgent` is imported by `src/driver.py` (lines 8-14) and its
`shutdown()` is called by `Driver.stop_system`, but the class itself is not
among the provided source files; the definitions below are modelled from the
specification. -/

/-- The polling agent: the supervisor state plus liveness — the agent is
unusable after `shutdown()`. -/
structure AgentState where
  sup : SupState
  alive : Bool
deriving Repr, DecidableEq

/-- Blocking actions `shutdown()` performs, in order: signal each running
worker's cancel handle, then await the execution pool drain (with a bounded
wait). -/
inductive ShutdownAction where
  | signal (eventId : Nat)
  | awaitDrain (bounded : Bool)
deriving Repr, DecidableEq

/-- Modelled from the spec: `PollingAgent.shutdown()` (§4.1) — signals every
running worker's cancel handle and blocks until the underlying execution pool
has drained (bounded wait); the agent is unusable afterward. -/
def shutdown (a : AgentState) : AgentState × List ShutdownAction :=
  let evs := a.sup.workers.filterMap (fun p => p.2.stop_event)
  ({ sup := { a.sup with signalled := a.sup.signalled ++ evs }, alive := false },
    evs.map .signal ++ [.awaitDrain true])

/-- Modelled from the spec: agent operations are unavailable once the agent
has been shut down ("the agent is unusable afterward", §4.1). -/
def agent_reconcile (a : AgentState) (new_nodes : List Node) :
    Option (AgentState × List Action) :=
  if a.alive then
    let r := reconcile a.sup new_nodes
    some ({ sup := r.1, alive := true }, r.2)
  else none

/-! ### The persistent connection layer (spec §4.3)

`PersistentConnection` is imported by `src/driver.py` (lines 8-14) but its
definition is not among the provided source files; the definitions below are
modelled from the specification. -/

/-- Outcome of one open-and-execute attempt of `PersistentConnection.run`. -/
inductive AttemptOutcome where
  | succeeds (result : String)
  | fails (err : String)
deriving Repr, DecidableEq

/-- Terminal error of `PersistentConnection.run`. -/
inductive RunError where
  | cancelled
  | exhausted (target : String) (retries : Nat)
deriving Repr, DecidableEq

/-- Modelled from the spec: the backoff delay after a failed attempt,
`delay = min(2^attempt, 10 seconds)` (§4.3). -/
def backoff_delay (attempt : Nat) : Nat := min (2 ^ attempt) 10

/-- Modelled from the spec: the retry loop of `PersistentConnection.run`
(§4.3), missing from the provided sources.  `attempt` is the 1-based number of
the current attempt and `remaining` counts attempts still allowed; `outcome k`
is what attempt `k` does; `cancel k` tells whether the cancel signal fires
during the backoff wait after attempt `k`.  Returns the result together with
the list of backoff delays fully waited.  On a failure the session is torn
down, the backoff delay is waited (abort with a cancellation error if the
cancel signal fires during the wait), and the loop retries; after `maxRetries`
exhausted failures it fails with a connection-exhausted error naming the
target and retry count. -/
def conn_run_go (target : String) (maxRetries : Nat) (outcome : Nat → AttemptOutcome)
    (cancel : Nat → Bool) : Nat → Nat → Except RunError String × List Nat
  | _, 0 => (.error (.exhausted target maxRetries), [])
  | attempt, remaining + 1 =>
    match outcome attempt with
    | .succeeds r => (.ok r, [])
    | .fails _ =>
      if cancel attempt then (.error .cancelled, [])
      else
        let r := conn_run_go target maxRetries outcome cancel (attempt + 1) remaining
        (r.1, backoff_delay attempt :: r.2)

/-- Modelled from the spec: `PersistentConnection.run` bounded by
`maxRetries` attempts (§4.3). -/
def conn_run (target : String) (maxRetries : Nat) (outcome : Nat → AttemptOutcome)
    (cancel : Nat → Bool) : Except RunError String × List Nat :=
  conn_run_go target maxRetries outcome cancel 1 maxRetries

/-! ### Concrete instances used by the witnesses -/

/-- A concrete running state for the reconcile witnesses: workers "a" and "b"
with interval 5, events 0 and 1 live. -/
def supEx : SupState :=
  { workers :=
      [("a", { name := "a", provider := 0, interval := 5, stop_event := some 0,
               fail_count := 0 }),
       ("b", { name := "b", provider := 1, interval := 5, stop_event := some 1,
               fail_count := 0 })]
    next_event := 2
    events_created := [(0, "a"), (1, "b")]
    signalled := [] }

/-- A concrete desired list for the reconcile witnesses: "b" moves to
interval 7, "c" is new, "a" disappears. -/
def desiredEx : List Node := [mkNode "b" 1 7, mkNode "c" 2 5]

/-- A live agent over the concrete supervisor state. -/
def agentEx : AgentState := { sup := supEx, alive := true }

/-- A worker cycle whose top-of-loop stop check fires (the exit at
polling_agent.py line 236). -/
def envStopTop : CycleEnv :=
  { stop_at_top := true, stop_during_wait := false, collect := .raises "e",
    now_top := 0, now_check := 0, now_set := 0, ts := "t" }

/-!
## Theorems
-/

/-! ### C10 — the metrics consumer's cache write -/

/-- C10: consuming a `MetricEvent` writes the per-node cache file iff the
event is a success; a failure event changes no file at all; the
"cache updated" log line is emitted for both outcomes. -/
theorem metrics_consumer_cache_write_iff_success (fs : FileSystem) (event : MetricEvent) :
    ((metrics_consumer_step fs event).written = [cacheFileName event.node] ↔
        event.success = true)
    ∧ (event.success = false → (metrics_consumer_step fs event).fs = fs)
    ∧ (event.success = true →
        (metrics_consumer_step fs event).fs (cacheFileName event.node) = some event.payload)
    ∧ (∀ name, name ≠ cacheFileName event.node →
        (metrics_consumer_step fs event).fs name = fs name)
    ∧ (metrics_consumer_step fs event).logs = ["cache updated: " ++ event.node] := by
  unfold metrics_consumer_step
  by_cases h : event.success = true
  · refine ⟨?_, ?_, ?_, ?_, ?_⟩
    · simp [h]
    · simp [h]
    · simp [h]
    · intro name hn
      simp [h, hn]
    · simp [h]
  · have h0 : event.success = false := by simpa using h
    refine ⟨?_, ?_, ?_, ?_, ?_⟩ <;> simp [h0, cacheFileName]

/-- Witness for C10 at a concrete failure event and the empty file system. -/
theorem metrics_consumer_cache_write_iff_success_witness :
    (metrics_consumer_step (fun _ => none)
        { node := "a", success := false, payload := .error "boom", timestamp := "t" }).fs
      = (fun _ => none) :=
  (metrics_consumer_cache_write_iff_success (fun _ => none)
      { node := "a", success := false, payload := .error "boom", timestamp := "t" }).2.1 rfl

/-! ### C3, C4, C5 — the worker poll loop -/

/-- Helper: a cycle whose stop checks do not fire reaches the collection step
and produces exactly the cycle's event, advancing `next_run` by `interval`
(snapped to the current time when overrun). -/
theorem run_node_step_no_stop (name : String) (interval next_run : ℚ) (env : CycleEnv)
    (h : noStop env) :
    run_node_step name interval next_run env =
      .running (if next_run + interval < env.now_check then env.now_set
                else next_run + interval)
        [cycleEvent name env] := by
  unfold run_node_step
  simp [h.1, h.2]

/-- C3: every iteration of the poll loop that reaches the collection step
(no stop at the top, and no stop during a pending scheduling wait) places
exactly one `MetricEvent` on the queue — the success event when
`provider.collect()` returns a record, the failure event carrying the error
description when it raises; never zero events and never two. -/
theorem run_node_one_event_per_cycle (name : String) (interval next_run : ℚ)
    (env : CycleEnv) (htop : env.stop_at_top = false)
    (hwait : ¬(0 < next_run - env.now_top ∧ env.stop_during_wait = true)) :
    run_node_step name interval next_run env =
      .running (if next_run + interval < env.now_check then env.now_set
                else next_run + interval)
        [match env.collect with
          | .ok m => successEvent name m env.ts
          | .raises e => failureEvent name e env.ts] := by
  unfold run_node_step
  simp only [htop, if_false, Bool.false_eq_true, if_neg hwait]
  rfl

/-- Witness for C3 at a concrete cycle whose collection raises. -/
theorem run_node_one_event_per_cycle_witness :
    run_node_step "a" 5 0 envRaise = .running 5 [failureEvent "a" "timeout" "t"] := by
  have h := run_node_one_event_per_cycle "a" 5 0 envRaise rfl (by simp [envRaise])
  rw [h, if_neg (by norm_num [envRaise])]
  norm_num [envRaise]

/-- C4: the worker exits only via its stop event.  Over any finite trace in
which no stop check fires — in particular however many cycles' collections
raise — the worker is still running afterwards and has emitted exactly one
event per cycle (a failure event for each raising cycle). -/
theorem run_node_survives_collection_failures (name : String) (interval next_run : ℚ)
    (trace : List CycleEnv) (hstop : ∀ env ∈ trace, noStop env) :
    (run_node_trace name interval next_run trace).1.isSome = true
    ∧ (run_node_trace name interval next_run trace).2 =
        trace.map (cycleEvent name) := by
  revert hstop
  induction trace generalizing next_run with
  | nil =>
    intro _
    simp [run_node_trace]
  | cons env rest ih =>
    intro hstop
    have henv : noStop env := hstop env (List.mem_cons_self env rest)
    have hrest : ∀ e ∈ rest, noStop e := fun e he => hstop e (List.mem_cons_of_mem env he)
    have hstep := run_node_step_no_stop name interval next_run env henv
    have ihr := ih (if next_run + interval < env.now_check then env.now_set
        else next_run + interval) hrest
    simp only [run_node_trace, hstep]
    exact ⟨ihr.1, by simp [ihr.2]⟩

/-- Witness for C4: three consecutive raising cycles leave the worker running
with three failure events emitted. -/
theorem run_node_survives_collection_failures_witness :
    (run_node_trace "a" 5 0
        [{ stop_at_top := false, stop_during_wait := false, collect := .raises "e1",
           now_top := 0, now_check := 1, now_set := 1, ts := "t1" },
         { stop_at_top := false, stop_during_wait := false, collect := .raises "e2",
           now_top := 5, now_check := 6, now_set := 6, ts := "t2" },
         { stop_at_top := false, stop_during_wait := false, collect := .raises "e3",
           now_top := 10, now_check := 11, now_set := 11, ts := "t3" }]).1.isSome = true :=
  (run_node_survives_collection_failures "a" 5 0 _ (by decide)).1

/-- Helper for C5: under no stops and no overruns, the scheduled `next_run`
advances by exactly `interval` per cycle. -/
theorem run_node_trace_no_overrun (name : String) (interval : ℚ) (trace : List CycleEnv)
    (start : ℚ) (hstop : ∀ env ∈ trace, noStop env)
    (hno : no_overrun interval start trace = true) :
    (run_node_trace name interval start trace).1 =
      some (start + trace.length * interval) := by
  revert hstop hno
  induction trace generalizing start with
  | nil =>
    intro _ _
    simp [run_node_trace]
  | cons env rest ih =>
    intro hstop hno
    have henv : noStop env := hstop env (List.mem_cons_self env rest)
    have hrest : ∀ e ∈ rest, noStop e := fun e he => hstop e (List.mem_cons_of_mem env he)
    unfold no_overrun at hno
    rw [Bool.and_eq_true, decide_eq_true_eq] at hno
    have hstep := run_node_step_no_stop name interval start env henv
    rw [if_neg (not_lt.mpr hno.1)] at hstep
    have ihr := ih (start + interval) hrest hno.2
    simp only [run_node_trace, hstep, ihr, List.length_cons]
    congr 1
    push_cast
    ring

/-- C5: drift-free scheduling.  (1) Over any trace without stops in which no
cycle overruns, `next_run` after `N` cycles is exactly `start + N * interval`
— the schedule `start + interval, start + 2*interval, …` regardless of
per-cycle jitter below the interval.  (2) When a cycle does overrun
(`next_run + interval` already in the past), `next_run` is snapped to the
current time.  (3) After such a snap the next cycle runs immediately — its
scheduling wait is not entered at all (a single catch-up run, not a burst) —
and the schedule resumes advancing by `interval` from the snapped time. -/
theorem run_node_drift_free (name : String) (interval start : ℚ)
    (trace : List CycleEnv) (hstop : ∀ env ∈ trace, noStop env) :
    (no_overrun interval start trace = true →
      (run_node_trace name interval start trace).1 =
        some (start + trace.length * interval))
    ∧ (∀ (next_run : ℚ) (env : CycleEnv), noStop env →
        next_run + interval < env.now_check →
        run_node_step name interval next_run env =
          .running env.now_set [cycleEvent name env])
    ∧ (∀ (env env2 : CycleEnv), noStop env → env2.stop_at_top = false →
        env.now_set ≤ env2.now_top →
        run_node_step name interval env.now_set env2 =
          .running (if env.now_set + interval < env2.now_check then env2.now_set
                    else env.now_set + interval)
            [cycleEvent name env2]) := by
  refine ⟨?_, ?_, ?_⟩
  · intro hno
    exact run_node_trace_no_overrun name interval trace start hstop hno
  · intro next_run env henv hover
    rw [run_node_step_no_stop name interval next_run env henv, if_pos hover]
  · intro env env2 henv htop2 hmono
    unfold run_node_step
    rw [if_neg (by simp [htop2])]
    rw [if_neg ?hc]
    case hc =>
      rintro ⟨h1, _⟩
      have : (0 : ℚ) < env.now_set - env2.now_top := h1
      linarith

/-- Witness for C5: two on-time cycles at interval 5 schedule runs at 5 and 10,
and an overrun cycle snaps `next_run` to the current time. -/
theorem run_node_drift_free_witness :
    (run_node_trace "a" 5 0
        [{ stop_at_top := false, stop_during_wait := false, collect := .raises "e1",
           now_top := 0, now_check := 1, now_set := 1, ts := "t1" },
         { stop_at_top := false, stop_during_wait := false, collect := .raises "e2",
           now_top := 5, now_check := 6, now_set := 6, ts := "t2" }]).1 = some 10
    ∧ run_node_step "a" 5 0
        { stop_at_top := false, stop_during_wait := false, collect := .raises "e3",
          now_top := 0, now_check := 7, now_set := 7, ts := "t3" } =
        .running 7 [cycleEvent "a"
          { stop_at_top := false, stop_during_wait := false, collect := .raises "e3",
            now_top := 0, now_check := 7, now_set := 7, ts := "t3" }] := by
  have h := run_node_drift_free "a" 5 0
    [{ stop_at_top := false, stop_during_wait := false, collect := .raises "e1",
       now_top := 0, now_check := 1, now_set := 1, ts := "t1" },
     { stop_at_top := false, stop_during_wait := false, collect := .raises "e2",
       now_top := 5, now_check := 6, now_set := 6, ts := "t2" }] (by decide)
  constructor
  · have h1 := h.1 (by norm_num [no_overrun])
    norm_num at h1
    exact h1
  · exact h.2.1 0
      { stop_at_top := false, stop_during_wait := false, collect := .raises "e3",
        now_top := 0, now_check := 7, now_set := 7, ts := "t3" }
      (by simp [noStop]) (by norm_num)

/-! ### C6 — persistent connection backoff (spec-modelled) -/

/-- C6: with `maxRetries = 5`, (1) when every attempt fails and no
cancellation fires, the backoff delays are exactly `2, 4, 8, 10, 10` seconds
and the run fails with a connection-exhausted error naming the target and the
retry count — raised after the 5th failed attempt; (2) never earlier: if any
attempt up to the 5th succeeds (all earlier ones failing, no cancellation),
the run returns that attempt's result instead of an exhaustion error. -/
theorem conn_run_backoff_bound (target : String) (outcome : Nat → AttemptOutcome)
    (cancel : Nat → Bool) (err : Nat → String)
    (hnc : ∀ k, cancel k = false) :
    ((∀ k, 1 ≤ k → k ≤ 5 → outcome k = .fails (err k)) →
      conn_run target 5 outcome cancel =
        (.error (.exhausted target 5), [2, 4, 8, 10, 10]))
    ∧ (∀ j r, 1 ≤ j → j ≤ 5 → outcome j = .succeeds r →
        (∀ k, 1 ≤ k → k < j → outcome k = .fails (err k)) →
        (conn_run target 5 outcome cancel).1 = .ok r) := by
  constructor
  · intro hfail
    have h1 := hfail 1 (by norm_num) (by norm_num)
    have h2 := hfail 2 (by norm_num) (by norm_num)
    have h3 := hfail 3 (by norm_num) (by norm_num)
    have h4 := hfail 4 (by norm_num) (by norm_num)
    have h5 := hfail 5 (by norm_num) (by norm_num)
    simp only [conn_run, conn_run_go, h1, h2, h3, h4, h5, hnc, if_false,
      Bool.false_eq_true, backoff_delay]
    norm_num
  · intro j r hj1 hj5 hsucc hprev
    interval_cases j
    · simp only [conn_run, conn_run_go, hsucc]
    · have h1 := hprev 1 (by norm_num) (by norm_num)
      simp only [conn_run, conn_run_go, h1, hsucc, hnc, if_false, Bool.false_eq_true]
    · have h1 := hprev 1 (by norm_num) (by norm_num)
      have h2 := hprev 2 (by norm_num) (by norm_num)
      simp only [conn_run, conn_run_go, h1, h2, hsucc, hnc, if_false, Bool.false_eq_true]
    · have h1 := hprev 1 (by norm_num) (by norm_num)
      have h2 := hprev 2 (by norm_num) (by norm_num)
      have h3 := hprev 3 (by norm_num) (by norm_num)
      simp only [conn_run, conn_run_go, h1, h2, h3, hsucc, hnc, if_false,
        Bool.false_eq_true]
    · have h1 := hprev 1 (by norm_num) (by norm_num)
      have h2 := hprev 2 (by norm_num) (by norm_num)
      have h3 := hprev 3 (by norm_num) (by norm_num)
      have h4 := hprev 4 (by norm_num) (by norm_num)
      simp only [conn_run, conn_run_go, h1, h2, h3, h4, hsucc, hnc, if_false,
        Bool.false_eq_true]

/-- Witness for C6: all five attempts failing yields delays 2, 4, 8, 10, 10
and an exhaustion error. -/
theorem conn_run_backoff_bound_witness :
    conn_run "pi" 5 (fun _ => .fails "refused") (fun _ => false) =
      (.error (.exhausted "pi" 5), [2, 4, 8, 10, 10]) :=
  (conn_run_backoff_bound "pi" (fun _ => .fails "refused") (fun _ => false)
      (fun _ => "refused") (fun _ => rfl)).1 (fun _ _ _ => rfl)

/-! ### Association-list lemmas for the worker map -/

theorem mem_keys_iff_lookup (m : List (String × Node)) (k : String) :
    k ∈ keys m ↔ ∃ v, lookupNode m k = some v := by
  induction m with
  | nil => simp [keys, lookupNode]
  | cons p rest ih =>
    by_cases h : p.1 = k
    · simp [keys, lookupNode, h]
    · simp only [keys, List.map_cons, List.mem_cons, lookupNode, if_neg h]
      constructor
      · rintro (h1 | h2)
        · exact absurd h1.symm h
        · exact ih.mp h2
      · intro hv
        exact Or.inr (ih.mpr hv)

theorem lookupNode_eq_none (m : List (String × Node)) (k : String)
    (h : ¬ k ∈ keys m) : lookupNode m k = none := by
  cases hl : lookupNode m k with
  | none => rfl
  | some v => exact absurd ((mem_keys_iff_lookup m k).mpr ⟨v, hl⟩) h

theorem not_mem_keys_of_lookup_none (m : List (String × Node)) (k : String)
    (h : lookupNode m k = none) : ¬ k ∈ keys m := by
  intro hk
  obtain ⟨v, hv⟩ := (mem_keys_iff_lookup m k).mp hk
  rw [h] at hv
  exact Option.noConfusion hv

theorem mem_keys_of_lookup_some (m : List (String × Node)) (k : String) (v : Node)
    (h : lookupNode m k = some v) : k ∈ keys m :=
  (mem_keys_iff_lookup m k).mpr ⟨v, h⟩

theorem lookupNode_some_mem (m : List (String × Node)) (k : String) (v : Node)
    (h : lookupNode m k = some v) : (k, v) ∈ m := by
  induction m with
  | nil => exact Option.noConfusion h
  | cons p rest ih =>
    by_cases hp : p.1 = k
    · rw [lookupNode, if_pos hp] at h
      have hv : p.2 = v := Option.some.inj h
      have hpe : p = (k, v) := by
        obtain ⟨p1, p2⟩ := p
        simp only at hp hv
        rw [hp, hv]
      rw [← hpe]
      exact List.mem_cons_self p rest
    · rw [lookupNode, if_neg hp] at h
      exact List.mem_cons_of_mem p (ih h)

theorem lookupNode_of_mem_nodup (m : List (String × Node)) (k : String) (v : Node)
    (hnd : (keys m).Nodup) (h : (k, v) ∈ m) : lookupNode m k = some v := by
  induction m with
  | nil => exact absurd h (List.not_mem_nil (k, v))
  | cons p rest ih =>
    rw [keys, List.map_cons, List.nodup_cons] at hnd
    rcases List.mem_cons.mp h with h1 | h2
    · rw [← h1, lookupNode, if_pos rfl]
    · have hk : p.1 ≠ k := by
        intro he
        exact hnd.1 (he ▸ (List.mem_map_of_mem Prod.fst h2))
      rw [lookupNode, if_neg hk]
      exact ih hnd.2 h2

theorem mem_keys_of_mem (m : List (String × Node)) (p : String × Node)
    (h : p ∈ m) : p.1 ∈ keys m := List.mem_map_of_mem Prod.fst h

theorem keys_dictSet_of_mem (m : List (String × Node)) (k : String) (v : Node)
    (h : k ∈ keys m) : keys (dictSet m k v) = keys m := by
  rw [dictSet, if_pos h, keys, keys, List.map_map]
  apply List.map_congr_left
  intro p _
  by_cases hp : p.1 = k
  · simp [hp]
  · simp [hp]

theorem keys_dictSet_of_not_mem (m : List (String × Node)) (k : String) (v : Node)
    (h : ¬ k ∈ keys m) : keys (dictSet m k v) = keys m ++ [k] := by
  rw [dictSet, if_neg h, keys, keys, List.map_append]
  rfl

theorem mem_keys_dictSet (m : List (String × Node)) (k a : String) (v : Node) :
    a ∈ keys (dictSet m k v) ↔ a ∈ keys m ∨ a = k := by
  by_cases h : k ∈ keys m
  · rw [keys_dictSet_of_mem m k v h]
    constructor
    · exact Or.inl
    · rintro (h1 | rfl)
      · exact h1
      · exact h
  · rw [keys_dictSet_of_not_mem m k v h]
    simp

theorem nodup_keys_dictSet (m : List (String × Node)) (k : String) (v : Node)
    (hnd : (keys m).Nodup) : (keys (dictSet m k v)).Nodup := by
  by_cases h : k ∈ keys m
  · rw [keys_dictSet_of_mem m k v h]
    exact hnd
  · rw [keys_dictSet_of_not_mem m k v h]
    simp [List.nodup_append, hnd, h]

theorem lookupNode_mapReplace_self (m : List (String × Node)) (k : String) (v : Node)
    (h : k ∈ keys m) :
    lookupNode (m.map fun p => if p.1 = k then (k, v) else p) k = some v := by
  induction m with
  | nil => exact absurd h (by simp [keys])
  | cons p rest ih =>
    by_cases hp : p.1 = k
    · rw [List.map_cons, if_pos hp]
      show (if k = k then some v else _) = some v
      rw [if_pos rfl]
    · have hr : k ∈ keys rest := by
        rcases List.mem_cons.mp h with h1 | h2
        · exact absurd h1.symm hp
        · exact h2
      rw [List.map_cons, if_neg hp]
      show (if p.1 = k then some p.2 else _) = some v
      rw [if_neg hp]
      exact ih hr

theorem lookupNode_append_one_self (m : List (String × Node)) (k : String) (v : Node)
    (h : ¬ k ∈ keys m) : lookupNode (m ++ [(k, v)]) k = some v := by
  induction m with
  | nil =>
    show (if k = k then some v else _) = some v
    rw [if_pos rfl]
  | cons p rest ih =>
    have hp : p.1 ≠ k := by
      intro he
      apply h
      show k ∈ p.1 :: keys rest
      rw [he]
      exact List.mem_cons_self k (keys rest)
    have hr : ¬ k ∈ keys rest := by
      intro hk
      apply h
      show k ∈ p.1 :: keys rest
      exact List.mem_cons_of_mem p.1 hk
    rw [List.cons_append, lookupNode, if_neg hp]
    exact ih hr

theorem lookupNode_dictSet_self (m : List (String × Node)) (k : String) (v : Node) :
    lookupNode (dictSet m k v) k = some v := by
  rw [dictSet]
  by_cases h : k ∈ keys m
  · rw [if_pos h]
    exact lookupNode_mapReplace_self m k v h
  · rw [if_neg h]
    exact lookupNode_append_one_self m k v h

theorem lookupNode_mapReplace_ne (m : List (String × Node)) (k a : String) (v : Node)
    (h : a ≠ k) :
    lookupNode (m.map fun p => if p.1 = k then (k, v) else p) a = lookupNode m a := by
  induction m with
  | nil => rfl
  | cons p rest ih =>
    by_cases hp : p.1 = k
    · have hka : ¬ (k = a) := fun he => h he.symm
      have hpa : ¬ (p.1 = a) := fun he => h (hp ▸ he : k = a).symm
      simp only [List.map_cons, if_pos hp, lookupNode, if_neg hka, if_neg hpa, ih]
    · by_cases hpa : p.1 = a
      · simp only [List.map_cons, if_neg hp, lookupNode, if_pos hpa]
      · simp only [List.map_cons, if_neg hp, lookupNode, if_neg hpa, ih]

theorem lookupNode_append_one_ne (m : List (String × Node)) (k a : String) (v : Node)
    (h : a ≠ k) : lookupNode (m ++ [(k, v)]) a = lookupNode m a := by
  induction m with
  | nil =>
    have hka : ¬ (k = a) := fun he => h he.symm
    simp only [List.nil_append, lookupNode, if_neg hka]
  | cons p rest ih =>
    by_cases hpa : p.1 = a
    · simp only [List.cons_append, lookupNode, if_pos hpa]
    · simp only [List.cons_append, lookupNode, if_neg hpa]
      exact ih

theorem lookupNode_dictSet_ne (m : List (String × Node)) (k a : String) (v : Node)
    (h : a ≠ k) : lookupNode (dictSet m k v) a = lookupNode m a := by
  rw [dictSet]
  by_cases hm : k ∈ keys m
  · rw [if_pos hm]
    exact lookupNode_mapReplace_ne m k a v h
  · rw [if_neg hm]
    exact lookupNode_append_one_ne m k a v h

theorem keys_dictPop (m : List (String × Node)) (k : String) :
    keys (dictPop m k) = (keys m).filter (fun a => decide (¬ a = k)) := by
  induction m with
  | nil => rfl
  | cons p rest ih =>
    by_cases hp : p.1 = k
    · rw [show dictPop (p :: rest) k = dictPop rest k by
        simp [dictPop, List.filter_cons, hp]]
      rw [show (keys (p :: rest)).filter (fun a => decide (¬ a = k)) =
          (keys rest).filter (fun a => decide (¬ a = k)) by
        show (p.1 :: keys rest).filter _ = _
        simp [List.filter_cons, hp]]
      exact ih
    · rw [show dictPop (p :: rest) k = p :: dictPop rest k by
        simp [dictPop, List.filter_cons, hp]]
      rw [show (keys (p :: rest)).filter (fun a => decide (¬ a = k)) =
          p.1 :: (keys rest).filter (fun a => decide (¬ a = k)) by
        show (p.1 :: keys rest).filter _ = _
        simp [List.filter_cons, hp]]
      show p.1 :: keys (dictPop rest k) = _
      rw [ih]

theorem mem_keys_dictPop (m : List (String × Node)) (k a : String) :
    a ∈ keys (dictPop m k) ↔ a ∈ keys m ∧ a ≠ k := by
  rw [keys_dictPop]
  simp

theorem nodup_keys_dictPop (m : List (String × Node)) (k : String)
    (hnd : (keys m).Nodup) : (keys (dictPop m k)).Nodup := by
  rw [keys_dictPop]
  exact hnd.filter _

theorem lookupNode_dictPop_ne (m : List (String × Node)) (k a : String)
    (h : a ≠ k) : lookupNode (dictPop m k) a = lookupNode m a := by
  induction m with
  | nil => rfl
  | cons p rest ih =>
    by_cases hp : p.1 = k
    · have hpa : ¬ (p.1 = a) := fun he => h ((he ▸ hp : a = k))
      rw [show dictPop (p :: rest) k = dictPop rest k by
        simp [dictPop, List.filter_cons, hp]]
      rw [ih, lookupNode, if_neg hpa]
    · rw [show dictPop (p :: rest) k = p :: dictPop rest k by
        simp [dictPop, List.filter_cons, hp]]
      by_cases hpa : p.1 = a
      · rw [lookupNode, if_pos hpa, lookupNode, if_pos hpa]
      · rw [lookupNode, if_neg hpa, lookupNode, if_neg hpa]
        exact ih

theorem mem_dictPop (m : List (String × Node)) (k : String) (p : String × Node)
    (h : p ∈ dictPop m k) : p ∈ m ∧ p.1 ≠ k := by
  rw [dictPop, List.mem_filter] at h
  exact ⟨h.1, by simpa using h.2⟩

theorem mem_dictSet (m : List (String × Node)) (k : String) (v : Node)
    (p : String × Node) (h : p ∈ dictSet m k v) : (p ∈ m ∧ p.1 ≠ k) ∨ p = (k, v) := by
  rw [dictSet] at h
  by_cases hm : k ∈ keys m
  · rw [if_pos hm] at h
    obtain ⟨q, hq, hqe⟩ := List.mem_map.mp h
    by_cases hqk : q.1 = k
    · rw [if_pos hqk] at hqe
      exact Or.inr hqe.symm
    · rw [if_neg hqk] at hqe
      exact Or.inl ⟨hqe ▸ hq, hqe ▸ hqk⟩
  · rw [if_neg hm] at h
    rcases List.mem_append.mp h with h1 | h2
    · left
      refine ⟨h1, ?_⟩
      intro he
      exact hm (he ▸ mem_keys_of_mem m p h1)
    · exact Or.inr (List.mem_singleton.mp h2)

/-! ### Lemmas about `buildMap` -/

theorem mem_keys_foldl_dictSet (ns : List Node) (m : List (String × Node)) (a : String) :
    (a ∈ keys (ns.foldl (fun m n => dictSet m n.name n) m) ↔
      a ∈ keys m ∨ a ∈ ns.map Node.name) := by
  induction ns generalizing m with
  | nil => simp
  | cons n rest ih =>
    rw [List.foldl_cons, ih (dictSet m n.name n), mem_keys_dictSet]
    simp only [List.map_cons, List.mem_cons]
    tauto

theorem nodup_keys_foldl_dictSet (ns : List Node) (m : List (String × Node))
    (h : (keys m).Nodup) :
    (keys (ns.foldl (fun m n => dictSet m n.name n) m)).Nodup := by
  induction ns generalizing m with
  | nil => exact h
  | cons n rest ih =>
    rw [List.foldl_cons]
    exact ih (dictSet m n.name n) (nodup_keys_dictSet m n.name n h)

theorem mem_keys_buildMap (ns : List Node) (a : String) :
    a ∈ keys (buildMap ns) ↔ a ∈ ns.map Node.name := by
  rw [buildMap, mem_keys_foldl_dictSet]
  simp [keys]

theorem nodup_keys_buildMap (ns : List Node) : (keys (buildMap ns)).Nodup :=
  nodup_keys_foldl_dictSet ns [] (by simp [keys])

/-! ### Phase lemmas for `reconcile` -/

theorem startPhase_acts (s : SupState) (l : List (String × Node)) :
    (startPhase s l).2 = l.map (fun p => Action.started p.1) := by
  induction l generalizing s with
  | nil => rfl
  | cons p rest ih =>
    obtain ⟨name, node⟩ := p
    simp only [startPhase, List.map_cons]
    rw [ih]

theorem startPhase_keys (s : SupState) (l : List (String × Node))
    (hfresh : ∀ p ∈ l, ¬ p.1 ∈ keys s.workers)
    (hnd : (l.map Prod.fst).Nodup) :
    keys (startPhase s l).1.workers = keys s.workers ++ l.map Prod.fst := by
  induction l generalizing s with
  | nil => simp [startPhase]
  | cons p rest ih =>
    obtain ⟨name, node⟩ := p
    rw [List.map_cons, List.nodup_cons] at hnd
    have hfh : ¬ name ∈ keys s.workers := hfresh (name, node) (List.mem_cons_self _ _)
    have hkeys1 : keys (startWorker s name node).workers = keys s.workers ++ [name] := by
      rw [startWorker]
      exact keys_dictSet_of_not_mem s.workers name _ hfh
    have hfresh1 : ∀ q ∈ rest, ¬ q.1 ∈ keys (startWorker s name node).workers := by
      intro q hq
      rw [hkeys1]
      intro hmem
      rcases List.mem_append.mp hmem with h1 | h2
      · exact hfresh q (List.mem_cons_of_mem _ hq) h1
      · have hqm : q.1 ∈ List.map Prod.fst rest := List.mem_map_of_mem Prod.fst hq
        rw [List.mem_singleton.mp h2] at hqm
        exact hnd.1 hqm
    simp only [startPhase]
    rw [ih (startWorker s name node) hfresh1 hnd.2, hkeys1, List.map_cons,
      List.append_assoc, List.singleton_append]

theorem startPhase_signalled (s : SupState) (l : List (String × Node)) :
    (startPhase s l).1.signalled = s.signalled := by
  induction l generalizing s with
  | nil => rfl
  | cons p rest ih =>
    obtain ⟨name, node⟩ := p
    simp only [startPhase]
    rw [ih]
    rfl

theorem startPhase_lookup_old (s : SupState) (l : List (String × Node)) (nm : String)
    (hnm : ¬ nm ∈ l.map Prod.fst) :
    lookupNode (startPhase s l).1.workers nm = lookupNode s.workers nm := by
  induction l generalizing s with
  | nil => rfl
  | cons p rest ih =>
    obtain ⟨name, node⟩ := p
    rw [List.map_cons, List.mem_cons] at hnm
    push_neg at hnm
    simp only [startPhase]
    rw [ih (startWorker s name node) hnm.2]
    exact lookupNode_dictSet_ne s.workers name nm _ hnm.1

theorem startPhase_lookup_new (s : SupState) (l : List (String × Node))
    (hfresh : ∀ p ∈ l, ¬ p.1 ∈ keys s.workers)
    (hnd : (l.map Prod.fst).Nodup) (p : String × Node) (hp : p ∈ l) :
    ∃ e, lookupNode (startPhase s l).1.workers p.1 =
      some { p.2 with stop_event := some e } := by
  induction l generalizing s with
  | nil => exact absurd hp (List.not_mem_nil p)
  | cons q rest ih =>
    obtain ⟨name, node⟩ := q
    rw [List.map_cons, List.nodup_cons] at hnd
    have hfh : ¬ name ∈ keys s.workers := hfresh (name, node) (List.mem_cons_self _ _)
    have hkeys1 : keys (startWorker s name node).workers = keys s.workers ++ [name] := by
      rw [startWorker]
      exact keys_dictSet_of_not_mem s.workers name _ hfh
    rcases List.mem_cons.mp hp with h1 | h2
    · subst h1
      refine ⟨s.next_event, ?_⟩
      simp only [startPhase]
      rw [startPhase_lookup_old (startWorker s name node) rest (name, node).1 hnd.1]
      exact lookupNode_dictSet_self s.workers name _
    · have hfresh1 : ∀ q ∈ rest, ¬ q.1 ∈ keys (startWorker s name node).workers := by
        intro q hq
        rw [hkeys1]
        intro hmem
        rcases List.mem_append.mp hmem with ha | hb
        · exact hfresh q (List.mem_cons_of_mem _ hq) ha
        · have hqm : q.1 ∈ List.map Prod.fst rest := List.mem_map_of_mem Prod.fst hq
          rw [List.mem_singleton.mp hb] at hqm
          exact hnd.1 hqm
      obtain ⟨e, he⟩ := ih (startWorker s name node) hfresh1 hnd.2 h2
      exact ⟨e, by simpa only [startPhase] using he⟩

theorem stopPhase_acts (s : SupState) (l : List String)
    (hmem : ∀ nm ∈ l, nm ∈ keys s.workers) (hnd : l.Nodup) :
    (stopPhase s l).2 = l.map Action.stopped := by
  induction l generalizing s with
  | nil => rfl
  | cons name rest ih =>
    rw [List.nodup_cons] at hnd
    obtain ⟨node, hl⟩ := (mem_keys_iff_lookup s.workers name).mp
      (hmem name (List.mem_cons_self _ _))
    have hmem1 : ∀ nm ∈ rest, nm ∈ keys (stopWorker s name node).workers := by
      intro nm hnm
      show nm ∈ keys (dictPop s.workers name)
      rw [mem_keys_dictPop]
      refine ⟨hmem nm (List.mem_cons_of_mem _ hnm), ?_⟩
      intro he
      exact hnd.1 (he ▸ hnm)
    simp only [stopPhase, hl, List.map_cons]
    rw [ih (stopWorker s name node) hmem1 hnd.2]

theorem stopPhase_keys (s : SupState) (l : List String) :
    keys (stopPhase s l).1.workers =
      (keys s.workers).filter (fun nm => decide (¬ nm ∈ l)) := by
  induction l generalizing s with
  | nil =>
    simp only [stopPhase]
    rw [List.filter_congr (fun a _ => by simp : ∀ a ∈ keys s.workers,
      (fun nm => decide (¬ nm ∈ ([] : List String))) a = (fun _ => true) a)]
    rw [List.filter_true]
  | cons name rest ih =>
    cases hl : lookupNode s.workers name with
    | none =>
      have hname : ¬ name ∈ keys s.workers := not_mem_keys_of_lookup_none _ _ hl
      simp only [stopPhase, hl]
      rw [ih s]
      apply List.filter_congr
      intro a ha
      have hane : a ≠ name := fun he => hname (he ▸ ha)
      simp [List.mem_cons, hane]
    | some node =>
      simp only [stopPhase, hl]
      rw [ih (stopWorker s name node)]
      show (keys (dictPop s.workers name)).filter _ = _
      rw [keys_dictPop, List.filter_filter]
      apply List.filter_congr
      intro a _
      by_cases h1 : a = name
      · simp [h1]
      · by_cases h2 : a ∈ rest <;> simp [h1, h2]

theorem stopPhase_lookup (s : SupState) (l : List String) (nm : String)
    (hnm : ¬ nm ∈ l) :
    lookupNode (stopPhase s l).1.workers nm = lookupNode s.workers nm := by
  induction l generalizing s with
  | nil => rfl
  | cons name rest ih =>
    rw [List.mem_cons] at hnm
    push_neg at hnm
    cases hl : lookupNode s.workers name with
    | none =>
      simp only [stopPhase, hl]
      exact ih s hnm.2
    | some node =>
      simp only [stopPhase, hl]
      rw [ih (stopWorker s name node) hnm.2]
      exact lookupNode_dictPop_ne s.workers name nm hnm.1

theorem intervalDiffers_congr (m1 m2 : List (String × Node)) (p : String × Node)
    (h : lookupNode m1 p.1 = lookupNode m2 p.1) :
    intervalDiffers m1 p = intervalDiffers m2 p := by
  unfold intervalDiffers
  rw [h]

theorem checkPhase_keys (s : SupState) (l : List (String × Node)) :
    keys (checkPhase s l).1.workers = keys s.workers := by
  induction l generalizing s with
  | nil => rfl
  | cons p rest ih =>
    obtain ⟨name, nn⟩ := p
    cases hl : lookupNode s.workers name with
    | none =>
      simp only [checkPhase, hl]
      exact ih s
    | some old =>
      by_cases hd : nn.interval ≠ old.interval
      · simp only [checkPhase, hl, if_pos hd]
        rw [ih (reloadWorker s name nn old)]
        show keys (dictSet s.workers name _) = _
        exact keys_dictSet_of_mem s.workers name _ (mem_keys_of_lookup_some _ _ _ hl)
      · simp only [checkPhase, hl, if_neg hd]
        exact ih s

theorem checkPhase_lookup_notin (s : SupState) (l : List (String × Node)) (nm : String)
    (hnm : ¬ nm ∈ l.map Prod.fst) :
    lookupNode (checkPhase s l).1.workers nm = lookupNode s.workers nm := by
  induction l generalizing s with
  | nil => rfl
  | cons p rest ih =>
    obtain ⟨name, nn⟩ := p
    rw [List.map_cons, List.mem_cons] at hnm
    push_neg at hnm
    cases hl : lookupNode s.workers name with
    | none =>
      simp only [checkPhase, hl]
      exact ih s hnm.2
    | some old =>
      by_cases hd : nn.interval ≠ old.interval
      · simp only [checkPhase, hl, if_pos hd]
        rw [ih (reloadWorker s name nn old) hnm.2]
        exact lookupNode_dictSet_ne s.workers name nm _ hnm.1
      · simp only [checkPhase, hl, if_neg hd]
        exact ih s hnm.2

theorem checkPhase_acts (s : SupState) (l : List (String × Node))
    (hmem : ∀ p ∈ l, p.1 ∈ keys s.workers)
    (hnd : (l.map Prod.fst).Nodup) :
    (checkPhase s l).2 =
      (l.filter (intervalDiffers s.workers)).map (fun p => Action.reloaded p.1) := by
  induction l generalizing s with
  | nil => rfl
  | cons p rest ih =>
    obtain ⟨name, nn⟩ := p
    rw [List.map_cons, List.nodup_cons] at hnd
    obtain ⟨old, hl⟩ := (mem_keys_iff_lookup s.workers name).mp
      (hmem (name, nn) (List.mem_cons_self _ _))
    have hdiff : intervalDiffers s.workers (name, nn) =
        decide (¬ nn.interval = old.interval) := by
      unfold intervalDiffers
      rw [hl]
    by_cases hd : nn.interval ≠ old.interval
    · have hmem1 : ∀ q ∈ rest, q.1 ∈ keys (reloadWorker s name nn old).workers := by
        intro q hq
        show q.1 ∈ keys (dictSet s.workers name _)
        rw [keys_dictSet_of_mem s.workers name _ (mem_keys_of_lookup_some _ _ _ hl)]
        exact hmem q (List.mem_cons_of_mem _ hq)
      have hcongr :
          List.filter (intervalDiffers (reloadWorker s name nn old).workers) rest =
            List.filter (intervalDiffers s.workers) rest := by
        apply List.filter_congr
        intro q hq
        apply intervalDiffers_congr
        show lookupNode
          (dictSet s.workers name { nn with stop_event := some s.next_event }) q.1 = _
        refine lookupNode_dictSet_ne s.workers name q.1 _ ?_
        intro he
        have hqm : q.1 ∈ List.map Prod.fst rest := List.mem_map_of_mem Prod.fst hq
        rw [he] at hqm
        exact hnd.1 hqm
      simp only [checkPhase, hl, if_pos hd]
      rw [ih (reloadWorker s name nn old) hmem1 hnd.2, hcongr]
      rw [List.filter_cons, if_pos (by rw [hdiff]; exact decide_eq_true hd), List.map_cons]
    · have hmem2 : ∀ q ∈ rest, q.1 ∈ keys s.workers :=
        fun q hq => hmem q (List.mem_cons_of_mem _ hq)
      simp only [checkPhase, hl, if_neg hd]
      rw [ih s hmem2 hnd.2]
      rw [List.filter_cons, if_neg (by rw [hdiff]; simpa using hd)]

theorem checkPhase_lookup_in (s : SupState) (l : List (String × Node))
    (hmem : ∀ p ∈ l, p.1 ∈ keys s.workers)
    (hnd : (l.map Prod.fst).Nodup) (p : String × Node) (hp : p ∈ l) :
    ∃ st, lookupNode (checkPhase s l).1.workers p.1 = some st ∧
      st.interval = p.2.interval := by
  induction l generalizing s with
  | nil => exact absurd hp (List.not_mem_nil p)
  | cons q rest ih =>
    obtain ⟨name, nn⟩ := q
    rw [List.map_cons, List.nodup_cons] at hnd
    obtain ⟨old, hl⟩ := (mem_keys_iff_lookup s.workers name).mp
      (hmem (name, nn) (List.mem_cons_self _ _))
    by_cases hd : nn.interval ≠ old.interval
    · have hmem1 : ∀ r ∈ rest, r.1 ∈ keys (reloadWorker s name nn old).workers := by
        intro r hr
        show r.1 ∈ keys (dictSet s.workers name _)
        rw [keys_dictSet_of_mem s.workers name _ (mem_keys_of_lookup_some _ _ _ hl)]
        exact hmem r (List.mem_cons_of_mem _ hr)
      rcases List.mem_cons.mp hp with h1 | h2
      · refine ⟨{ nn with stop_event := some s.next_event }, ?_, ?_⟩
        · simp only [checkPhase, hl, if_pos hd]
          rw [h1]
          rw [checkPhase_lookup_notin (reloadWorker s name nn old) rest name hnd.1]
          exact lookupNode_dictSet_self s.workers name _
        · rw [h1]
      · simp only [checkPhase, hl, if_pos hd]
        exact ih (reloadWorker s name nn old) hmem1 hnd.2 h2
    · have heq : nn.interval = old.interval := not_not.mp hd
      rcases List.mem_cons.mp hp with h1 | h2
      · subst h1
        refine ⟨old, ?_, heq.symm⟩
        simp only [checkPhase, hl, if_neg hd]
        rw [checkPhase_lookup_notin s rest (name, nn).1 hnd.1]
        exact hl
      · simp only [checkPhase, hl, if_neg hd]
        exact ih s (fun r hr => hmem r (List.mem_cons_of_mem _ hr)) hnd.2 h2

/-! ### Reconcile-level lemmas -/

theorem mem_toStartOf (s : SupState) (d : List Node) (nm : String) :
    nm ∈ (toStartOf s d).map Prod.fst ↔
      nm ∈ keys (buildMap d) ∧ ¬ nm ∈ keys s.workers := by
  unfold toStartOf
  constructor
  · intro h
    obtain ⟨p, hp, hpe⟩ := List.mem_map.mp h
    rw [List.mem_filter] at hp
    have hφ : ¬ p.1 ∈ keys s.workers := of_decide_eq_true hp.2
    exact ⟨hpe ▸ mem_keys_of_mem _ p hp.1, hpe ▸ hφ⟩
  · rintro ⟨h1, h2⟩
    obtain ⟨p, hp, hpe⟩ := List.mem_map.mp h1
    apply List.mem_map.mpr
    refine ⟨p, List.mem_filter.mpr ⟨hp, decide_eq_true (hpe ▸ h2 : ¬ p.1 ∈ _)⟩, hpe⟩

theorem mem_toStopOf (s : SupState) (d : List Node) (nm : String) :
    nm ∈ toStopOf s d ↔ nm ∈ keys s.workers ∧ ¬ nm ∈ keys (buildMap d) := by
  unfold toStopOf
  rw [List.mem_filter]
  constructor
  · rintro ⟨h1, h2⟩
    exact ⟨h1, of_decide_eq_true h2⟩
  · rintro ⟨h1, h2⟩
    exact ⟨h1, decide_eq_true h2⟩

theorem reconcile_unfold (s : SupState) (d : List Node)
    (hnd : (keys s.workers).Nodup) :
    ((reconcile s d).2 =
        (toStartOf s d).map (fun p => Action.started p.1)
          ++ (toStopOf s d).map Action.stopped
          ++ ((toCheckOf s d).filter (intervalDiffers s.workers)).map
              (fun p => Action.reloaded p.1))
    ∧ (∀ nm, nm ∈ keys (reconcile s d).1.workers ↔ nm ∈ keys (buildMap d))
    ∧ ((keys (reconcile s d).1.workers).Nodup)
    ∧ (∀ p ∈ buildMap d, ∃ st, lookupNode (reconcile s d).1.workers p.1 = some st ∧
        st.interval = p.2.interval) := by
  have hMnd : (keys (buildMap d)).Nodup := nodup_keys_buildMap d
  have hndStart : ((toStartOf s d).map Prod.fst).Nodup :=
    List.Sublist.nodup ((List.filter_sublist _).map Prod.fst) hMnd
  have hndCheck : ((toCheckOf s d).map Prod.fst).Nodup :=
    List.Sublist.nodup ((List.filter_sublist _).map Prod.fst) hMnd
  have hfreshStart : ∀ p ∈ toStartOf s d, ¬ p.1 ∈ keys s.workers := by
    intro p hp
    rw [toStartOf, List.mem_filter] at hp
    exact of_decide_eq_true hp.2
  have hkeys1 : keys (startPhase s (toStartOf s d)).1.workers =
      keys s.workers ++ (toStartOf s d).map Prod.fst :=
    startPhase_keys s _ hfreshStart hndStart
  have hndStop : (toStopOf s d).Nodup := hnd.filter _
  have hmemStop : ∀ nm ∈ toStopOf s d,
      nm ∈ keys (startPhase s (toStartOf s d)).1.workers := by
    intro nm hnm
    rw [hkeys1]
    apply List.mem_append_left
    exact ((mem_toStopOf s d nm).mp hnm).1
  have hkeys2 :
      keys (stopPhase (startPhase s (toStartOf s d)).1 (toStopOf s d)).1.workers =
        (keys (startPhase s (toStartOf s d)).1.workers).filter
          (fun nm => decide (¬ nm ∈ toStopOf s d)) :=
    stopPhase_keys _ _
  have hmemCheck : ∀ p ∈ toCheckOf s d,
      p.1 ∈ keys (stopPhase (startPhase s (toStartOf s d)).1 (toStopOf s d)).1.workers := by
    intro p hp
    rw [toCheckOf, List.mem_filter] at hp
    have hpc : p.1 ∈ keys s.workers := of_decide_eq_true hp.2
    have hpM : p.1 ∈ keys (buildMap d) := mem_keys_of_mem _ p hp.1
    have hnotStop : ¬ p.1 ∈ toStopOf s d := by
      intro hx
      exact ((mem_toStopOf s d p.1).mp hx).2 hpM
    rw [hkeys2, List.mem_filter]
    refine ⟨?_, decide_eq_true hnotStop⟩
    rw [hkeys1]
    exact List.mem_append_left _ hpc
  have hlook2 : ∀ p ∈ toCheckOf s d,
      lookupNode (stopPhase (startPhase s (toStartOf s d)).1 (toStopOf s d)).1.workers p.1 =
        lookupNode s.workers p.1 := by
    intro p hp
    rw [toCheckOf, List.mem_filter] at hp
    have hpc : p.1 ∈ keys s.workers := of_decide_eq_true hp.2
    have hnotStart : ¬ p.1 ∈ (toStartOf s d).map Prod.fst := by
      rw [mem_toStartOf]
      rintro ⟨-, h2⟩
      exact h2 hpc
    have hnotStop : ¬ p.1 ∈ toStopOf s d := by
      intro hx
      exact ((mem_toStopOf s d p.1).mp hx).2 (mem_keys_of_mem _ p hp.1)
    rw [stopPhase_lookup _ _ _ hnotStop, startPhase_lookup_old _ _ _ hnotStart]
  have hw : keys (reconcile s d).1.workers =
      (keys s.workers ++ (toStartOf s d).map Prod.fst).filter
        (fun x => decide (¬ x ∈ toStopOf s d)) := by
    show keys (checkPhase _ _).1.workers = _
    rw [checkPhase_keys, hkeys2, hkeys1]
  refine ⟨?_, ?_, ?_, ?_⟩
  · have hsplit : (reconcile s d).2 =
        (startPhase s (toStartOf s d)).2
          ++ (stopPhase (startPhase s (toStartOf s d)).1 (toStopOf s d)).2
          ++ (checkPhase (stopPhase (startPhase s (toStartOf s d)).1 (toStopOf s d)).1
                (toCheckOf s d)).2 := rfl
    rw [hsplit, startPhase_acts, stopPhase_acts _ _ hmemStop hndStop,
      checkPhase_acts _ _ hmemCheck hndCheck,
      List.filter_congr (fun p hp => intervalDiffers_congr _ _ p (hlook2 p hp))]
  · intro nm
    rw [hw, List.mem_filter, List.mem_append, mem_toStartOf]
    constructor
    · rintro ⟨h1 | ⟨h2a, _⟩, h3⟩
      · have hno : ¬ nm ∈ toStopOf s d := of_decide_eq_true h3
        by_contra hM
        exact hno ((mem_toStopOf s d nm).mpr ⟨h1, hM⟩)
      · exact h2a
    · intro hM
      by_cases hA : nm ∈ keys s.workers
      · refine ⟨Or.inl hA, decide_eq_true ?_⟩
        intro hx
        exact ((mem_toStopOf s d nm).mp hx).2 hM
      · refine ⟨Or.inr ⟨hM, hA⟩, decide_eq_true ?_⟩
        intro hx
        exact hA ((mem_toStopOf s d nm).mp hx).1
  · rw [hw]
    apply List.Nodup.filter
    rw [List.nodup_append]
    refine ⟨hnd, hndStart, ?_⟩
    intro a ha hb
    exact ((mem_toStartOf s d a).mp hb).2 ha
  · intro p hp
    by_cases hc : p.1 ∈ keys s.workers
    · have hpC : p ∈ toCheckOf s d := by
        rw [toCheckOf, List.mem_filter]
        exact ⟨hp, decide_eq_true hc⟩
      exact checkPhase_lookup_in _ _ hmemCheck hndCheck p hpC
    · have hpS : p ∈ toStartOf s d := by
        rw [toStartOf, List.mem_filter]
        exact ⟨hp, decide_eq_true hc⟩
      obtain ⟨e, he⟩ := startPhase_lookup_new s _ hfreshStart hndStart p hpS
      have hnotStop : ¬ p.1 ∈ toStopOf s d := by
        intro hx
        exact hc ((mem_toStopOf s d p.1).mp hx).1
      have hnotCheckN : ¬ p.1 ∈ (toCheckOf s d).map Prod.fst := by
        intro hx
        obtain ⟨q, hq, hqe⟩ := List.mem_map.mp hx
        rw [toCheckOf, List.mem_filter] at hq
        exact hc (hqe ▸ of_decide_eq_true hq.2)
      refine ⟨{ p.2 with stop_event := some e }, ?_, rfl⟩
      show lookupNode (checkPhase _ _).1.workers p.1 = _
      rw [checkPhase_lookup_notin _ _ _ hnotCheckN, stopPhase_lookup _ _ _ hnotStop, he]

/-! ### C1, C9 — reconcile diffing -/

/-- C1: the action trace of a single `reconcile(D)` call against the running
worker map R: a worker is started exactly for each name in names(D) −
names(R); a worker is stopped (cancel handle signalled and entry popped)
exactly for each name in names(R) − names(D); and a name in the intersection
undergoes the stop-old/start-new replacement iff the new node's interval (its
entry in `new_map`) differs from the running node's interval — with equal
intervals no start/stop/reload action touches it. -/
theorem reconcile_diff (s : SupState) (d : List Node)
    (hnd : (keys s.workers).Nodup) (nm : String) :
    ((Action.started nm ∈ (reconcile s d).2) ↔
        (nm ∈ d.map Node.name ∧ ¬ nm ∈ keys s.workers))
    ∧ ((Action.stopped nm ∈ (reconcile s d).2) ↔
        (nm ∈ keys s.workers ∧ ¬ nm ∈ d.map Node.name))
    ∧ ((Action.reloaded nm ∈ (reconcile s d).2) ↔
        (∃ nd old, lookupNode (buildMap d) nm = some nd ∧
          lookupNode s.workers nm = some old ∧ nd.interval ≠ old.interval)) := by
  have hacts := (reconcile_unfold s d hnd).1
  have hMnd : (keys (buildMap d)).Nodup := nodup_keys_buildMap d
  refine ⟨?_, ?_, ?_⟩
  · rw [hacts]
    simp only [List.mem_append, List.mem_map]
    constructor
    · rintro ((⟨p, hp, hpe⟩ | ⟨a, _, hae⟩) | ⟨p, _, hpe⟩)
      · obtain rfl : p.1 = nm := by injection hpe
        have hm := (mem_toStartOf s d p.1).mp (List.mem_map_of_mem Prod.fst hp)
        exact ⟨List.mem_map.mp ((mem_keys_buildMap d p.1).mp hm.1), hm.2⟩
      · exact absurd hae (by simp)
      · exact absurd hpe (by simp)
    · rintro ⟨h1, h2⟩
      have hm : nm ∈ (toStartOf s d).map Prod.fst :=
        (mem_toStartOf s d nm).mpr ⟨(mem_keys_buildMap d nm).mpr (List.mem_map.mpr h1), h2⟩
      obtain ⟨p, hp, hpe⟩ := List.mem_map.mp hm
      exact Or.inl (Or.inl ⟨p, hp, by rw [hpe]⟩)
  · rw [hacts]
    simp only [List.mem_append, List.mem_map]
    constructor
    · rintro ((⟨p, _, hpe⟩ | ⟨a, ha, hae⟩) | ⟨p, _, hpe⟩)
      · exact absurd hpe (by simp)
      · obtain rfl : a = nm := by injection hae
        have hm := (mem_toStopOf s d a).mp ha
        refine ⟨hm.1, fun hx => hm.2 ((mem_keys_buildMap d a).mpr (List.mem_map.mpr hx))⟩
      · exact absurd hpe (by simp)
    · rintro ⟨h1, h2⟩
      have hm : nm ∈ toStopOf s d :=
        (mem_toStopOf s d nm).mpr ⟨h1, fun hx => h2 (List.mem_map.mp ((mem_keys_buildMap d nm).mp hx))⟩
      exact Or.inl (Or.inr ⟨nm, hm, rfl⟩)
  · rw [hacts]
    simp only [List.mem_append, List.mem_map]
    constructor
    · rintro ((⟨p, _, hpe⟩ | ⟨a, _, hae⟩) | ⟨p, hp, hpe⟩)
      · exact absurd hpe (by simp)
      · exact absurd hae (by simp)
      · obtain rfl : p.1 = nm := by injection hpe
        rw [List.mem_filter] at hp
        obtain ⟨hpC, hpD⟩ := hp
        rw [toCheckOf, List.mem_filter] at hpC
        cases hlk : lookupNode s.workers p.1 with
        | none =>
          have : intervalDiffers s.workers p = false := by
            unfold intervalDiffers
            rw [hlk]
          rw [this] at hpD
          exact absurd hpD (by simp)
        | some old =>
          have hdiff : ¬ p.2.interval = old.interval := by
            have : intervalDiffers s.workers p = decide (¬ p.2.interval = old.interval) := by
              unfold intervalDiffers
              rw [hlk]
            rw [this] at hpD
            exact of_decide_eq_true hpD
          exact ⟨p.2, old, lookupNode_of_mem_nodup _ _ _ hMnd hpC.1, rfl, hdiff⟩
    · rintro ⟨nd, old, hM, hw, hne⟩
      have hmemM : (nm, nd) ∈ buildMap d := lookupNode_some_mem _ _ _ hM
      have hkeysS : nm ∈ keys s.workers := mem_keys_of_lookup_some _ _ _ hw
      have hpC : (nm, nd) ∈ toCheckOf s d := by
        rw [toCheckOf, List.mem_filter]
        exact ⟨hmemM, decide_eq_true hkeysS⟩
      have hID : intervalDiffers s.workers (nm, nd) = true := by
        unfold intervalDiffers
        rw [show lookupNode s.workers (nm, nd).1 = some old from hw]
        exact decide_eq_true hne
      refine Or.inr ⟨(nm, nd), List.mem_filter.mpr ⟨hpC, hID⟩, rfl⟩

/-- Witness for C1: on the concrete state, "c" (desired but not running) is
started. -/
theorem reconcile_diff_witness :
    Action.started "c" ∈ (reconcile supEx desiredEx).2 :=
  ((reconcile_diff supEx desiredEx (by decide) "c").1).mpr (by decide)

/-- C9: idempotence — calling `reconcile(X)` twice in a row with the same X
produces no start/stop/reload action on the second call. -/
theorem reconcile_idempotent (s : SupState) (d : List Node)
    (hnd : (keys s.workers).Nodup) :
    (reconcile (reconcile s d).1 d).2 = [] := by
  obtain ⟨-, hmem, hnd1, hlook⟩ := reconcile_unfold s d hnd
  have hacts2 := (reconcile_unfold (reconcile s d).1 d hnd1).1
  rw [hacts2]
  have h1 : toStartOf (reconcile s d).1 d = [] := by
    rw [toStartOf, List.filter_eq_nil_iff]
    intro p hp
    have hpm : p.1 ∈ keys (reconcile s d).1.workers :=
      (hmem p.1).mpr (mem_keys_of_mem _ p hp)
    simp [hpm]
  have h2 : toStopOf (reconcile s d).1 d = [] := by
    rw [toStopOf, List.filter_eq_nil_iff]
    intro a ha
    have ham : a ∈ keys (buildMap d) := (hmem a).mp ha
    simp [ham]
  have h3 : (toCheckOf (reconcile s d).1 d).filter
      (intervalDiffers (reconcile s d).1.workers) = [] := by
    rw [List.filter_eq_nil_iff]
    intro p hp
    rw [toCheckOf, List.mem_filter] at hp
    obtain ⟨st, hst, hint⟩ := hlook p hp.1
    have : intervalDiffers (reconcile s d).1.workers p =
        decide (¬ p.2.interval = st.interval) := by
      unfold intervalDiffers
      rw [hst]
    rw [this, hint]
    simp
  rw [h1, h2, h3]
  rfl

/-- Witness for C9 at the concrete state and desired list. -/
theorem reconcile_idempotent_witness :
    (reconcile (reconcile supEx desiredEx).1 desiredEx).2 = [] :=
  reconcile_idempotent supEx desiredEx (by decide)

/-! ### C2 — the at-most-one-worker invariant -/

theorem fst_nodup_inj {α : Type} {β : Type} (l : List (α × β))
    (hnd : (l.map Prod.fst).Nodup) (e : α) (a b : β)
    (ha : (e, a) ∈ l) (hb : (e, b) ∈ l) : a = b := by
  induction l with
  | nil => exact absurd ha (List.not_mem_nil _)
  | cons q rest ih =>
    rw [List.map_cons, List.nodup_cons] at hnd
    rcases List.mem_cons.mp ha with ha1 | ha2
    · rcases List.mem_cons.mp hb with hb1 | hb2
      · have hab := ha1.trans hb1.symm
        injection hab with h1 h2
      · exfalso
        apply hnd.1
        have : (e, b).1 ∈ List.map Prod.fst rest := List.mem_map_of_mem Prod.fst hb2
        rw [← ha1]
        exact this
    · rcases List.mem_cons.mp hb with hb1 | hb2
      · exfalso
        apply hnd.1
        have : (e, a).1 ∈ List.map Prod.fst rest := List.mem_map_of_mem Prod.fst ha2
        rw [← hb1]
        exact this
      · exact ih hnd.2 ha2 hb2

theorem dictSet_not_mem_eq (m : List (String × Node)) (k : String) (v : Node)
    (h : ¬ k ∈ keys m) : dictSet m k v = m ++ [(k, v)] := by
  rw [dictSet, if_neg h]

theorem SupInv_startWorker (s : SupState) (name : String) (node : Node)
    (h : SupInv s) (hfresh : ¬ name ∈ keys s.workers) :
    SupInv (startWorker s name node) := by
  have hw : (startWorker s name node).workers =
      s.workers ++ [(name, { node with stop_event := some s.next_event })] :=
    dictSet_not_mem_eq _ _ _ hfresh
  constructor
  · show (keys (startWorker s name node).workers).Nodup
    rw [hw, keys, List.map_append, List.nodup_append]
    refine ⟨h.keys_nodup, List.nodup_singleton name, ?_⟩
    intro a ha hb
    have hb2 : a = name := by simpa using hb
    exact hfresh (hb2 ▸ ha)
  · show ((s.events_created ++ [(s.next_event, name)]).map Prod.fst).Nodup
    rw [List.map_append]
    rw [List.nodup_append]
    refine ⟨h.created_nodup, List.nodup_singleton _, ?_⟩
    intro a ha hb
    rw [show (List.map Prod.fst [(s.next_event, name)]) = [s.next_event] from rfl,
      List.mem_singleton] at hb
    obtain ⟨q, hq, hqe⟩ := List.mem_map.mp ha
    have := h.created_lt q hq
    rw [hqe, hb] at this
    exact lt_irrefl _ this
  · intro q hq
    rcases List.mem_append.mp hq with h1 | h2
    · exact Nat.lt_succ_of_lt (h.created_lt q h1)
    · rw [List.mem_singleton.mp h2]
      exact Nat.lt_succ_self _
  · intro e he
    exact Nat.lt_succ_of_lt (h.signalled_lt e he)
  · intro p hp
    rw [hw] at hp
    rcases List.mem_append.mp hp with h1 | h2
    · obtain ⟨e, he, hc, hs⟩ := h.worker_event p h1
      exact ⟨e, he, List.mem_append_left _ hc, hs⟩
    · rw [List.mem_singleton.mp h2]
      refine ⟨s.next_event, rfl, ?_, ?_⟩
      · exact List.mem_append_right _ (List.mem_singleton_self _)
      · intro hx
        exact lt_irrefl _ (h.signalled_lt _ hx)
  · intro q hq hlive
    rw [hw]
    rcases List.mem_append.mp hq with h1 | h2
    · obtain ⟨nd, hlk, hse⟩ := h.live_current q h1 hlive
      have hne : q.2 ≠ name := by
        intro he
        exact hfresh (he ▸ mem_keys_of_lookup_some _ _ _ hlk)
      refine ⟨nd, ?_, hse⟩
      rw [lookupNode_append_one_ne _ _ _ _ hne]
      exact hlk
    · rw [List.mem_singleton.mp h2]
      refine ⟨{ node with stop_event := some s.next_event }, ?_, rfl⟩
      exact lookupNode_append_one_self _ _ _ hfresh

theorem SupInv_stopWorker (s : SupState) (name : String) (node : Node)
    (h : SupInv s) (hlk : lookupNode s.workers name = some node) :
    SupInv (stopWorker s name node) := by
  obtain ⟨e0, hse0, hc0, hs0⟩ := h.worker_event (name, node)
    (lookupNode_some_mem _ _ _ hlk)
  have htl : node.stop_event.toList = [e0] := by rw [hse0]; rfl
  constructor
  · exact nodup_keys_dictPop _ _ h.keys_nodup
  · exact h.created_nodup
  · exact h.created_lt
  · intro e he
    rw [show (stopWorker s name node).signalled =
        s.signalled ++ node.stop_event.toList from rfl, htl] at he
    rcases List.mem_append.mp he with h1 | h2
    · exact h.signalled_lt e h1
    · rw [List.mem_singleton.mp h2]
      exact h.created_lt (e0, name) hc0
  · intro p hp
    obtain ⟨hpm, hpne⟩ := mem_dictPop _ _ _ hp
    obtain ⟨e, he, hc, hs⟩ := h.worker_event p hpm
    refine ⟨e, he, hc, ?_⟩
    rw [show (stopWorker s name node).signalled =
        s.signalled ++ node.stop_event.toList from rfl, htl]
    intro hx
    rcases List.mem_append.mp hx with h1 | h2
    · exact hs h1
    · apply hpne
      exact fst_nodup_inj _ h.created_nodup e p.1 name
        hc (List.mem_singleton.mp h2 ▸ hc0)
  · intro q hq hlive
    rw [show (stopWorker s name node).signalled =
        s.signalled ++ node.stop_event.toList from rfl, htl] at hlive
    have hq1 : ¬ q.1 ∈ s.signalled := fun hx => hlive (List.mem_append_left _ hx)
    have hq2 : q.1 ≠ e0 := by
      intro he
      exact hlive (List.mem_append_right _ (he ▸ List.mem_singleton_self _))
    obtain ⟨nd, hlkq, hseq⟩ := h.live_current q hq hq1
    have hne : q.2 ≠ name := by
      intro he
      rw [he, hlk] at hlkq
      obtain rfl : node = nd := Option.some.inj hlkq
      rw [hse0] at hseq
      exact hq2 (Option.some.inj hseq).symm
    refine ⟨nd, ?_, hseq⟩
    show lookupNode (dictPop s.workers name) q.2 = some nd
    rw [lookupNode_dictPop_ne _ _ _ hne]
    exact hlkq

theorem SupInv_reloadWorker (s : SupState) (name : String) (new_node old_node : Node)
    (h : SupInv s) (hlk : lookupNode s.workers name = some old_node) :
    SupInv (reloadWorker s name new_node old_node) := by
  obtain ⟨e0, hse0, hc0, hs0⟩ := h.worker_event (name, old_node)
    (lookupNode_some_mem _ _ _ hlk)
  have he0lt : e0 < s.next_event := h.created_lt (e0, name) hc0
  have htl : old_node.stop_event.toList = [e0] := by rw [hse0]; rfl
  have hsig : (reloadWorker s name new_node old_node).signalled =
      s.signalled ++ [e0] := by
    show s.signalled ++ old_node.stop_event.toList = _
    rw [htl]
  constructor
  · exact nodup_keys_dictSet _ _ _ h.keys_nodup
  · show ((s.events_created ++ [(s.next_event, name)]).map Prod.fst).Nodup
    rw [List.map_append, List.nodup_append]
    refine ⟨h.created_nodup, List.nodup_singleton _, ?_⟩
    intro a ha hb
    rw [show (List.map Prod.fst [(s.next_event, name)]) = [s.next_event] from rfl,
      List.mem_singleton] at hb
    obtain ⟨q, hq, hqe⟩ := List.mem_map.mp ha
    have := h.created_lt q hq
    rw [hqe, hb] at this
    exact lt_irrefl _ this
  · intro q hq
    rcases List.mem_append.mp hq with h1 | h2
    · exact Nat.lt_succ_of_lt (h.created_lt q h1)
    · rw [List.mem_singleton.mp h2]
      exact Nat.lt_succ_self _
  · intro e he
    rw [hsig] at he
    rcases List.mem_append.mp he with h1 | h2
    · exact Nat.lt_succ_of_lt (h.signalled_lt e h1)
    · rw [List.mem_singleton.mp h2]
      exact Nat.lt_succ_of_lt he0lt
  · intro p hp
    rcases mem_dictSet _ _ _ p hp with ⟨hpm, hpne⟩ | hpe
    · obtain ⟨e, he, hc, hs⟩ := h.worker_event p hpm
      refine ⟨e, he, List.mem_append_left _ hc, ?_⟩
      rw [hsig]
      intro hx
      rcases List.mem_append.mp hx with h1 | h2
      · exact hs h1
      · apply hpne
        exact fst_nodup_inj _ h.created_nodup e p.1 name
          hc (List.mem_singleton.mp h2 ▸ hc0)
    · rw [hpe]
      refine ⟨s.next_event, rfl, ?_, ?_⟩
      · exact List.mem_append_right _ (List.mem_singleton_self _)
      · rw [hsig]
        intro hx
        rcases List.mem_append.mp hx with h1 | h2
        · exact lt_irrefl _ (h.signalled_lt _ h1)
        · rw [List.mem_singleton.mp h2] at he0lt
          exact lt_irrefl _ he0lt
  · intro q hq hlive
    rw [hsig] at hlive
    have hq1 : ¬ q.1 ∈ s.signalled := fun hx => hlive (List.mem_append_left _ hx)
    have hq2 : q.1 ≠ e0 := by
      intro he
      exact hlive (List.mem_append_right _ (he ▸ List.mem_singleton_self _))
    rcases List.mem_append.mp hq with h1 | h2
    · obtain ⟨nd, hlkq, hseq⟩ := h.live_current q h1 hq1
      have hne : q.2 ≠ name := by
        intro he
        rw [he, hlk] at hlkq
        obtain rfl : old_node = nd := Option.some.inj hlkq
        rw [hse0] at hseq
        exact hq2 (Option.some.inj hseq).symm
      refine ⟨nd, ?_, hseq⟩
      show lookupNode (dictSet s.workers name _) q.2 = some nd
      rw [lookupNode_dictSet_ne _ _ _ _ hne]
      exact hlkq
    · rw [List.mem_singleton.mp h2]
      refine ⟨{ new_node with stop_event := some s.next_event }, ?_, rfl⟩
      exact lookupNode_dictSet_self _ _ _

theorem SupInv_startPhase (s : SupState) (l : List (String × Node))
    (h : SupInv s) (hfresh : ∀ p ∈ l, ¬ p.1 ∈ keys s.workers)
    (hnd : (l.map Prod.fst).Nodup) : SupInv (startPhase s l).1 := by
  induction l generalizing s with
  | nil => exact h
  | cons p rest ih =>
    obtain ⟨name, node⟩ := p
    rw [List.map_cons, List.nodup_cons] at hnd
    have hfh : ¬ name ∈ keys s.workers := hfresh (name, node) (List.mem_cons_self _ _)
    have hkeys1 : keys (startWorker s name node).workers = keys s.workers ++ [name] := by
      rw [startWorker]
      exact keys_dictSet_of_not_mem s.workers name _ hfh
    have hfresh1 : ∀ q ∈ rest, ¬ q.1 ∈ keys (startWorker s name node).workers := by
      intro q hq
      rw [hkeys1]
      intro hmem
      rcases List.mem_append.mp hmem with h1 | h2
      · exact hfresh q (List.mem_cons_of_mem _ hq) h1
      · have hqm : q.1 ∈ List.map Prod.fst rest := List.mem_map_of_mem Prod.fst hq
        rw [List.mem_singleton.mp h2] at hqm
        exact hnd.1 hqm
    exact ih (startWorker s name node) (SupInv_startWorker s name node h hfh)
      hfresh1 hnd.2

theorem SupInv_stopPhase (s : SupState) (l : List String) (h : SupInv s) :
    SupInv (stopPhase s l).1 := by
  induction l generalizing s with
  | nil => exact h
  | cons name rest ih =>
    cases hl : lookupNode s.workers name with
    | none =>
      simp only [stopPhase, hl]
      exact ih s h
    | some node =>
      simp only [stopPhase, hl]
      exact ih (stopWorker s name node) (SupInv_stopWorker s name node h hl)

theorem SupInv_checkPhase (s : SupState) (l : List (String × Node)) (h : SupInv s) :
    SupInv (checkPhase s l).1 := by
  induction l generalizing s with
  | nil => exact h
  | cons p rest ih =>
    obtain ⟨name, nn⟩ := p
    cases hl : lookupNode s.workers name with
    | none =>
      simp only [checkPhase, hl]
      exact ih s h
    | some old =>
      by_cases hd : nn.interval ≠ old.interval
      · simp only [checkPhase, hl, if_pos hd]
        exact ih (reloadWorker s name nn old) (SupInv_reloadWorker s name nn old h hl)
      · simp only [checkPhase, hl, if_neg hd]
        exact ih s h

theorem SupInv_reconcile (s : SupState) (d : List Node) (h : SupInv s) :
    SupInv (reconcile s d).1 := by
  have hfresh : ∀ p ∈ toStartOf s d, ¬ p.1 ∈ keys s.workers := by
    intro p hp
    rw [toStartOf, List.mem_filter] at hp
    exact of_decide_eq_true hp.2
  have hndStart : ((toStartOf s d).map Prod.fst).Nodup :=
    List.Sublist.nodup ((List.filter_sublist _).map Prod.fst) (nodup_keys_buildMap d)
  exact SupInv_checkPhase _ _ (SupInv_stopPhase _ _
    (SupInv_startPhase s _ h hfresh hndStart))

theorem SupInv_init : SupInv init_state := by
  constructor
  · show (List.map Prod.fst ([] : List (String × Node))).Nodup
    exact List.nodup_nil
  · exact List.nodup_nil
  · intro q hq
    exact absurd hq (List.not_mem_nil q)
  · intro e he
    exact absurd he (List.not_mem_nil e)
  · intro p hp
    exact absurd hp (List.not_mem_nil p)
  · intro q hq
    exact absurd hq (List.not_mem_nil q)

theorem SupInv_reconcile_seq (dss : List (List Node)) (s : SupState) (h : SupInv s) :
    SupInv (reconcile_seq s dss) := by
  induction dss generalizing s with
  | nil => exact h
  | cons d rest ih => exact ih (reconcile s d).1 (SupInv_reconcile s d h)

theorem length_filter_le_one_of_fst_eq {α β : Type} (l : List (α × β))
    (φ : α × β → Bool) (hnd : (l.map Prod.fst).Nodup)
    (hsame : ∀ p, p ∈ l.filter φ → ∀ q, q ∈ l.filter φ → p.1 = q.1) :
    (l.filter φ).length ≤ 1 := by
  have hsub : ((l.filter φ).map Prod.fst).Nodup :=
    List.Sublist.nodup ((List.filter_sublist _).map Prod.fst) hnd
  cases hf : l.filter φ with
  | nil => simp
  | cons q tail =>
    cases tail with
    | nil => simp
    | cons q2 t2 =>
      exfalso
      rw [hf, List.map_cons, List.map_cons, List.nodup_cons] at hsub
      apply hsub.1
      rw [show q.1 = q2.1 from hsame q (hf ▸ List.mem_cons_self _ _) q2
        (hf ▸ List.mem_cons_of_mem _ (List.mem_cons_self _ _))]
      exact List.mem_cons_self _ _

/-- C2: after any finite sequence of `reconcile` calls from the empty worker
map, no node name is represented twice: at most one live (created and
unsignalled) cancel handle exists for each name, and the worker map holds at
most one entry per name. -/
theorem reconcile_at_most_one_worker (dss : List (List Node)) (nm : String) :
    ((reconcile_seq init_state dss).events_created.filter
        (fun q => decide (q.2 = nm ∧
          ¬ q.1 ∈ (reconcile_seq init_state dss).signalled))).length ≤ 1
    ∧ ((reconcile_seq init_state dss).workers.filter
        (fun p => decide (p.1 = nm))).length ≤ 1 := by
  have hInv : SupInv (reconcile_seq init_state dss) :=
    SupInv_reconcile_seq dss init_state SupInv_init
  constructor
  · apply length_filter_le_one_of_fst_eq _ _ hInv.created_nodup
    intro p hp q hq
    rw [List.mem_filter] at hp hq
    have hpc := of_decide_eq_true hp.2
    have hqc := of_decide_eq_true hq.2
    obtain ⟨ndp, hlkp, hsep⟩ := hInv.live_current p hp.1 hpc.2
    obtain ⟨ndq, hlkq, hseq⟩ := hInv.live_current q hq.1 hqc.2
    rw [hpc.1] at hlkp
    rw [hqc.1] at hlkq
    rw [hlkp] at hlkq
    obtain rfl : ndp = ndq := Option.some.inj hlkq
    rw [hsep] at hseq
    exact Option.some.inj hseq
  · apply length_filter_le_one_of_fst_eq _ _ hInv.keys_nodup
    intro p hp q hq
    rw [List.mem_filter] at hp hq
    rw [of_decide_eq_true hp.2, of_decide_eq_true hq.2]

/-! ### C7 — connection release on worker exit -/

/-- Helper: mapping events to `put` actions yields a trace with no
connection-release action in it. -/
theorem filter_close_map_put (l : List MetricEvent) :
    (l.map RunNodeAction.put).filter
      (fun a => decide (a = RunNodeAction.closeConnection)) = [] := by
  induction l with
  | nil => rfl
  | cons ev rest ih =>
    rw [List.map_cons, List.filter_cons, if_neg (by simp)]
    exact ih

/-- C7 fails on the source: `run_node` (polling_agent.py lines 219-275)
performs no connection release whatsoever.  (1) Over every trace of cycles,
its action trace contains zero `closeConnection` actions — in particular on
every execution that exits, the connection is released zero times, not
exactly once.  (2) The concrete failing input: a worker (name "a", interval
5) whose stop event is set at the top of the loop exits via the `return` at
line 236, with an empty action trace — no release before the function
returns. -/
theorem run_node_no_release_on_exit :
    (∀ (name : String) (interval next_run : ℚ) (trace : List CycleEnv),
      ((run_node_actions name interval next_run trace).2.filter
          (fun a => decide (a = RunNodeAction.closeConnection))).length = 0)
    ∧ (run_node_actions "a" 5 0 [envStopTop]).1 = none
    ∧ (run_node_actions "a" 5 0 [envStopTop]).2 = [] := by
  refine ⟨?_, rfl, rfl⟩
  intro name interval next_run trace
  show (((run_node_trace name interval next_run trace).2.map RunNodeAction.put).filter
      _).length = 0
  rw [filter_close_map_put]
  rfl

/-! ### C8 — `PollingAgent.shutdown` (spec-modelled) -/

/-- C8: `shutdown()` signals the cancel handle of every worker in the running
map, then (as its final blocking action) awaits the execution-pool drain with
a bounded wait; afterwards the agent is not alive and every further
`reconcile` request is refused. -/
theorem shutdown_signals_and_drains (a : AgentState) :
    (∀ p, p ∈ a.sup.workers → ∀ e, p.2.stop_event = some e →
        (e ∈ (shutdown a).1.sup.signalled ∧ ShutdownAction.signal e ∈ (shutdown a).2))
    ∧ (shutdown a).2.getLast? = some (ShutdownAction.awaitDrain true)
    ∧ (shutdown a).1.alive = false
    ∧ (∀ new_nodes, agent_reconcile (shutdown a).1 new_nodes = none) := by
  refine ⟨?_, ?_, rfl, ?_⟩
  · intro p hp e he
    have hev : e ∈ a.sup.workers.filterMap (fun q => q.2.stop_event) :=
      List.mem_filterMap.mpr ⟨p, hp, he⟩
    constructor
    · show e ∈ a.sup.signalled ++ _
      exact List.mem_append_right _ hev
    · show ShutdownAction.signal e ∈ _ ++ [ShutdownAction.awaitDrain true]
      apply List.mem_append_left
      exact List.mem_map_of_mem _ hev
  · show (_ ++ [ShutdownAction.awaitDrain true]).getLast? = _
    exact List.getLast?_concat _
  · intro ns
    rfl

/-- Witness for C8: shutting the concrete agent down signals worker "a"'s
event 0. -/
theorem shutdown_signals_and_drains_witness :
    ShutdownAction.signal 0 ∈ (shutdown agentEx).2 :=
  ((shutdown_signals_and_drains agentEx).1
      ("a", { name := "a", provider := 0, interval := 5, stop_event := some 0,
              fail_count := 0 })
      (by decide) 0 rfl).2

end ZeroMonitor
